import Mathlib

/-!
# Prediction-market portfolio optimiser (`script.js`)

A shallow embedding of the numeric core and of the run controller of
`script.js`, followed by theorems about them.

Conventions of the embedding.

* A tensor of shape `[n]` is a function `Fin n → K`; a tensor of shape
  `[batchSize, n]` is a function `Fin B → Fin n → K`.  Element-wise tensor
  operations are point-wise operations on such functions.
* Arithmetic is exact: `K` is any linearly ordered field (the theorems are
  stated over `ℝ`).  The exponential and the logarithm behind `tf.softmax` and
  `tf.log` are library functions; the definitions take them as the parameters
  `ex` and `lg`.  Most theorems instantiate them with `Real.exp`, `Real.log`;
  the theorem on the sampled wealth ratio holds for every exponential with
  non-negative values, among them `expUnderflow`, which is `0` on very negative
  arguments as the float32 exponential is.
* A scalar read back from the tensor library into JavaScript (the loss, a
  parsed input number) is a `JsNum`: a finite value, an infinity, or `NaN`.
* The optimiser step `optimizer.minimize` (random batch, automatic
  differentiation, Adam update) is a library call; the run controller sees
  only the loss it returns, which is supplied by the function `lossAt`.
-/

open Finset

namespace PredictionMarket

/-! ## Numeric core -/

section Numeric

variable {K : Type} [LinearOrderedField K]

/-- Line 2: `const EPSILON = 1e-6`. -/
def EPSILON (K : Type) [LinearOrderedField K] : K := 1 / 1000000

/-- The library operation `x.clipByValue(lo, hi)` on one entry:
`max(min(x, hi), lo)`. -/
def clipByValue (x lo hi : K) : K := max (min x hi) lo

/-- Line 62: `P_adj = P.clipByValue(EPSILON, 1 - EPSILON)`. -/
def P_adj {n : ℕ} (P : Fin n → K) : Fin n → K :=
  fun i => clipByValue (P i) (EPSILON K) (1 - EPSILON K)

/-- The library operation `tf.softmax` on a rank-one tensor:
`softmax(x)[i] = exp(x[i]) / Σ_j exp(x[j])`. -/
def softmax {n : ℕ} (ex : K → K) (x : Fin n → K) : Fin n → K :=
  fun i => ex (x i) / ∑ j, ex (x j)

/-- The four unconstrained optimisation variables of lines 66-69. -/
structure Params (K : Type) (n : ℕ) where
  theta_yes : K
  theta_no : K
  phi_yes : Fin n → K
  phi_no : Fin n → K

/-- Lines 66-69: the initial parameters, all zero. -/
def Params.init (K : Type) [LinearOrderedField K] (n : ℕ) : Params K n :=
  { theta_yes := 0, theta_no := 0, phi_yes := fun _ => 0, phi_no := fun _ => 0 }

/-- Lines 76-77 and 144-145: `thetas = stack([theta_yes, theta_no])`,
`f_fractions = softmax(thetas)`. -/
def f_fractions {n : ℕ} (ex : K → K) (ps : Params K n) : Fin 2 → K :=
  softmax ex ![ps.theta_yes, ps.theta_no]

/-- Lines 78 and 146: `f_yes = f_fractions.slice(0, 1)`. -/
def f_yes {n : ℕ} (ex : K → K) (ps : Params K n) : K := f_fractions ex ps 0

/-- Lines 79 and 147: `f_no = f_fractions.slice(1, 1)`. -/
def f_no {n : ℕ} (ex : K → K) (ps : Params K n) : K := f_fractions ex ps 1

/-- Lines 80 and 148: `alpha_yes = softmax(phi_yes)`. -/
def alpha_yes {n : ℕ} (ex : K → K) (ps : Params K n) : Fin n → K :=
  softmax ex ps.phi_yes

/-- Lines 81 and 149: `alpha_no = softmax(phi_no)`. -/
def alpha_no {n : ℕ} (ex : K → K) (ps : Params K n) : Fin n → K :=
  softmax ex ps.phi_no

/-- Lines 82 and 150: `n_yes = alpha_yes.mul(f_yes).mul(W).div(P_adj)`. -/
def n_yes {n : ℕ} (ex : K → K) (W : K) (Padj : Fin n → K) (ps : Params K n) :
    Fin n → K :=
  fun i => alpha_yes ex ps i * f_yes ex ps * W / Padj i

/-- Lines 83 and 151: `n_no = alpha_no.mul(f_no).mul(W).div(tf.sub(1, P_adj))`. -/
def n_no {n : ℕ} (ex : K → K) (W : K) (Padj : Fin n → K) (ps : Params K n) :
    Fin n → K :=
  fun i => alpha_no ex ps i * f_no ex ps * W / (1 - Padj i)

/-- Line 75: the outcome batch, `randomUniform([batchSize, numEvents])
.less(Y_prob).asType('float32')`; the uniform draws are the argument `U`. -/
def Y_outcome_batch {B n : ℕ} (Y_prob : Fin n → K) (U : Fin B → Fin n → K) :
    Fin B → Fin n → K :=
  fun b i => if U b i < Y_prob i then 1 else 0

/-- Lines 84-85: `profit_per_event = Y.sub(P).mul(n_yes.sub(n_no))`,
`G_batch = profit_per_event.sum(1)`. -/
def G_batch {B n : ℕ} (ex : K → K) (W : K) (P Padj : Fin n → K)
    (ps : Params K n) (Y : Fin B → Fin n → K) : Fin B → K :=
  fun b => ∑ i, (Y b i - P i) * (n_yes ex W Padj ps i - n_no ex W Padj ps i)

/-- Line 86: `wealth_ratio_batch = G_batch.div(W).add(1)`. -/
def wealth_ratio_batch {B n : ℕ} (ex : K → K) (W : K) (P Padj : Fin n → K)
    (ps : Params K n) (Y : Fin B → Fin n → K) : Fin B → K :=
  fun b => G_batch ex W P Padj ps Y b / W + 1

/-- Line 87: `log_return_batch = log(wealth_ratio_batch.clipByValue(EPSILON,
Infinity))`; clipping with an infinite upper bound is `max(x, EPSILON)`. -/
def log_return_batch {B n : ℕ} (ex lg : K → K) (W : K) (P Padj : Fin n → K)
    (ps : Params K n) (Y : Fin B → Fin n → K) : Fin B → K :=
  fun b => lg (max (wealth_ratio_batch ex W P Padj ps Y b) (EPSILON K))

/-- Lines 73-91: `lossFunction`, the negated batch mean of the log returns,
on the outcome batch `Y`. -/
def lossOnBatch {B n : ℕ} (ex lg : K → K) (W : K) (P Padj : Fin n → K)
    (ps : Params K n) (Y : Fin B → Fin n → K) : K :=
  -((∑ b, log_return_batch ex lg W P Padj ps Y b) / (B : K))

/-- Lines 73-91: `lossFunction`, on the uniform draws `U` of this call. -/
def lossFunction {B n : ℕ} (ex lg : K → K) (W : K) (P Padj Y_prob : Fin n → K)
    (ps : Params K n) (U : Fin B → Fin n → K) : K :=
  lossOnBatch ex lg W P Padj ps (Y_outcome_batch Y_prob U)

/-- The side shown in a row of the results table (lines 182-191). -/
inductive Side where
  | yes
  | no
  | none
  deriving DecidableEq, Repr

/-- What `displayResults` computes before rendering (lines 143-191). -/
structure Report (K : Type) (n : ℕ) where
  f_yes : K
  f_no : K
  alpha_yes : Fin n → K
  alpha_no : Fin n → K
  canceled_shares : Fin n → K
  n_yes_net : Fin n → K
  n_no_net : Fin n → K
  cash_from_cancel : K
  total_yes_cost : K
  total_no_cost : K
  total_capital_used_net : K
  cash_unallocated : K
  rowSide : Fin n → Side
  capital_total : Fin n → K

/-- Lines 140-203: `displayResults`, up to the rendering of the numbers. -/
def displayResults {n : ℕ} (ex : K → K) (W : K) (Padj : Fin n → K)
    (ps : Params K n) : Report K n :=
  let ny := n_yes ex W Padj ps
  let nn := n_no ex W Padj ps
  let canceled : Fin n → K := fun i => min (ny i) (nn i)
  let yesNet : Fin n → K := fun i => ny i - canceled i
  let noNet : Fin n → K := fun i => nn i - canceled i
  let cashFromCancel : K := ∑ i, canceled i
  let totalYes : K := ∑ i, yesNet i * Padj i
  let totalNo : K := ∑ i, noNet i * (1 - Padj i)
  let totalNet : K := totalYes + totalNo
  { f_yes := f_yes ex ps
    f_no := f_no ex ps
    alpha_yes := alpha_yes ex ps
    alpha_no := alpha_no ex ps
    canceled_shares := canceled
    n_yes_net := yesNet
    n_no_net := noNet
    cash_from_cancel := cashFromCancel
    total_yes_cost := totalYes
    total_no_cost := totalNo
    total_capital_used_net := totalNet
    cash_unallocated := W - totalNet - cashFromCancel
    rowSide := fun i =>
      if yesNet i > noNet i then Side.yes
      else if noNet i > 0 then Side.no
      else Side.none
    capital_total := fun i =>
      if yesNet i > noNet i then yesNet i * Padj i
      else if noNet i > 0 then noNet i * (1 - Padj i)
      else 0 }

/-- The per-sample loss of `lossFunction`: its value on a batch that holds
the single outcome vector `y`. -/
def sampleLoss {n : ℕ} (ex lg : K → K) (W : K) (P Padj : Fin n → K)
    (ps : Params K n) (y : Fin n → K) : K :=
  lossOnBatch ex lg W P Padj ps (fun _ : Fin 1 => y)

/-- The exact expectation of the per-sample loss for a single event with raw
price `p` whose outcome is `1` with probability `q` and `0` otherwise. -/
def expectedLoss (ex lg : K → K) (W p q : K) (ps : Params K 1) : K :=
  q * sampleLoss ex lg W (fun _ => p) (P_adj fun _ => p) ps (fun _ => 1)
    + (1 - q) * sampleLoss ex lg W (fun _ => p) (P_adj fun _ => p) ps (fun _ => 0)

/-- The parameters `ps` minimise the expected loss over `(theta_yes, theta_no)`. -/
def MinimisesExpectedLoss (ex lg : K → K) (W p q : K) (ps : Params K 1) : Prop :=
  ∀ ty tn : K,
    expectedLoss ex lg W p q ps
      ≤ expectedLoss ex lg W p q { ps with theta_yes := ty, theta_no := tn }

/-- An exponential with the underflow of the float32 one: it is `0` below
`-104`, where `e ^ x` is less than half the smallest positive float32, and
`1` at `0`.  In between and above it is a crude positive approximation,
`1 / (1 - x + x ^ 2 / 2)` for negative `x` and `1 + x + x ^ 2 / 2` otherwise. -/
def expUnderflow (x : ℚ) : ℚ :=
  if x < -104 then 0
  else if x < 0 then 1 / (1 - x + x ^ 2 / 2)
  else 1 + x + x ^ 2 / 2

end Numeric

/-! ## Run controller -/

section Controller

variable {K : Type}

/-- A JavaScript number: a finite value, `+Infinity`, `-Infinity` or `NaN`. -/
inductive JsNum (K : Type) where
  | finite (x : K)
  | posInf
  | negInf
  | nan
  deriving DecidableEq, Repr

/-- The built-in `isNaN`. -/
def JsNum.isNaN : JsNum K → Bool
  | JsNum.nan => true
  | _ => false

/-- Whether a number is finite (neither an infinity nor `NaN`). -/
def JsNum.isFinite : JsNum K → Bool
  | JsNum.finite _ => true
  | _ => false

/-- Unary minus on JavaScript numbers. -/
def JsNum.neg [Neg K] : JsNum K → JsNum K
  | JsNum.finite x => JsNum.finite (-x)
  | JsNum.posInf => JsNum.negInf
  | JsNum.negInf => JsNum.posInf
  | JsNum.nan => JsNum.nan

/-- The library operation `clipByValue(lo, hi)`, `max(min(x, hi), lo)`, on an
entry that may be infinite or `NaN`. -/
def JsNum.clipByValue [LinearOrderedField K] (v : JsNum K) (lo hi : K) : JsNum K :=
  match v with
  | JsNum.finite x => JsNum.finite (PredictionMarket.clipByValue x lo hi)
  | JsNum.posInf => JsNum.finite (max hi lo)
  | JsNum.negInf => JsNum.finite lo
  | JsNum.nan => JsNum.nan

/-- The built-in `input.split(',')` on the characters of the input. -/
def splitComma : List Char → List (List Char)
  | [] => [[]]
  | c :: cs =>
    if c = ',' then [] :: splitComma cs
    else
      match splitComma cs with
      | [] => [[c]]
      | w :: ws => (c :: w) :: ws

/-- Lines 26-28: `parseCsv`.  The argument `parseFloatTrim` is the composite
`s => parseFloat(s.trim())` of two built-ins. -/
def parseCsv (parseFloatTrim : String → JsNum K) (input : String) : List (JsNum K) :=
  ((splitComma input.data).map (fun s => parseFloatTrim (String.mk s))).filter
    (fun v => !v.isNaN)

/-- What a run does that can be observed: log lines, the run button, the
creation and release of the tensors and variables, optimiser steps, the
yields to the host, and the call of `displayResults`. -/
inductive Event (K : Type) where
  | clearLog
  | logStart
  | setButton (enabled : Bool)
  | logValidationError
  | logModelParameters (numEvents : ℕ)
  | createState (numEvents : ℕ)
  | minimize (i : ℕ)
  | logDivergence (i : ℕ)
  | logIter (i : ℕ) (expectedLogReturn : JsNum K)
  | nextFrame
  | logFinished
  | displayResults
  | disposeState
  deriving DecidableEq, Repr

/-- Lines 95-120: the body of the `try` block.  The second argument counts the
iterations the `for` loop has left (`iterations - i`); `lossAt i` is the loss
that `optimizer.minimize` returns at iteration `i`. -/
def trainLoop [Neg K] (iterations : ℤ) (lossAt : ℕ → JsNum K) : ℕ → ℕ → List (Event K)
  | 0, _ => [Event.logFinished, Event.displayResults]
  | remaining + 1, i =>
    let expectedLogReturn := (lossAt i).neg
    Event.minimize i ::
      (if expectedLogReturn.isNaN then [Event.logDivergence i]
       else
        (if i < 10 ∨ i % 100 = 0 ∨ (i : ℤ) = iterations - 1 then
          [Event.logIter i expectedLogReturn, Event.nextFrame]
         else []) ++ trainLoop iterations lossAt remaining (i + 1))

/-- Lines 94-120: the `try` block, entered with `i = 0`. -/
def optimizationLoop [Neg K] (iterations : ℤ) (lossAt : ℕ → JsNum K) : List (Event K) :=
  trainLoop iterations lossAt iterations.toNat 0

/-- Lines 37-136: `runOptimization`, as the list of what it does, in order.
`iterations` is the parsed iteration count; a count that does not parse makes
the loop condition `i < iterations` false at once, as a count of zero does. -/
def runOptimization [Neg K] (parseFloatTrim : String → JsNum K)
    (marketPrices trueProbs : String) (iterations : ℤ) (lossAt : ℕ → JsNum K) :
    List (Event K) :=
  let P_values := parseCsv parseFloatTrim marketPrices
  let Y_prob_values := parseCsv parseFloatTrim trueProbs
  [Event.clearLog, Event.logStart, Event.setButton false] ++
    (if P_values.length = 0 ∨ Y_prob_values.length = 0
        ∨ P_values.length ≠ Y_prob_values.length then
      [Event.logValidationError, Event.setButton true]
     else
      let numEvents := P_values.length
      [Event.logModelParameters numEvents, Event.createState numEvents]
        ++ optimizationLoop iterations lossAt
        ++ [Event.setButton true, Event.disposeState])

end Controller

/-! ## Theorems: hedge cancellation and capital accounting -/

/-- C1. Hedge cancellation in `displayResults`: for every wealth, price vector
and parameter values, with `canceled[i] = min(n_yes[i], n_no[i])`, the net
positions are `n_yes[i] - canceled[i]` and `n_no[i] - canceled[i]`, and on
every event their product is zero: never are both sides net-positive. -/
theorem hedge_cancellation_product_zero {n : ℕ} (W : ℝ) (P : Fin n → ℝ)
    (ps : Params ℝ n) (i : Fin n) :
    let r := displayResults Real.exp W (P_adj P) ps
    r.canceled_shares i
        = min (n_yes Real.exp W (P_adj P) ps i) (n_no Real.exp W (P_adj P) ps i)
      ∧ r.n_yes_net i = n_yes Real.exp W (P_adj P) ps i - r.canceled_shares i
      ∧ r.n_no_net i = n_no Real.exp W (P_adj P) ps i - r.canceled_shares i
      ∧ r.n_yes_net i * r.n_no_net i = 0
      ∧ ¬(0 < r.n_yes_net i ∧ 0 < r.n_no_net i) := by
  have hprod : (displayResults Real.exp W (P_adj P) ps).n_yes_net i
      * (displayResults Real.exp W (P_adj P) ps).n_no_net i = 0 := by
    simp only [displayResults]
    rcases le_total (n_yes Real.exp W (P_adj P) ps i)
        (n_no Real.exp W (P_adj P) ps i) with h | h
    · rw [min_eq_left h]; simp
    · rw [min_eq_right h]; simp
  refine ⟨rfl, rfl, rfl, hprod, fun hpos => ?_⟩
  have := mul_pos hpos.1 hpos.2
  rw [hprod] at this
  exact lt_irrefl _ this

/-- C2. Capital accounting of `displayResults`: the three reported figures,
net capital deployed (the cost of the net positions at the adjusted prices),
cash from cancelled pairs (the sum of the cancelled share counts) and
unallocated cash, add up to the initial wealth. -/
theorem capital_accounting_balances {n : ℕ} (W : ℝ) (P : Fin n → ℝ)
    (ps : Params ℝ n) :
    let r := displayResults Real.exp W (P_adj P) ps
    r.total_capital_used_net
        = ∑ i, r.n_yes_net i * P_adj P i + ∑ i, r.n_no_net i * (1 - P_adj P i)
      ∧ r.cash_from_cancel = ∑ i, r.canceled_shares i
      ∧ r.total_capital_used_net + r.cash_from_cancel + r.cash_unallocated = W := by
  refine ⟨rfl, rfl, ?_⟩
  simp only [displayResults]
  ring


/-! ## Lemmas on the parameterisation -/

section Lemmas

variable {K : Type} [LinearOrderedField K]

theorem EPSILON_pos : (0 : K) < EPSILON K := by
  unfold EPSILON; positivity

theorem EPSILON_lt_half : EPSILON K < 1 / 2 := by
  unfold EPSILON
  norm_num

theorem EPSILON_le_one_sub : EPSILON K ≤ 1 - EPSILON K := by
  have h := EPSILON_lt_half (K := K)
  linarith

theorem clipByValue_ge (x : K) : EPSILON K ≤ clipByValue x (EPSILON K) (1 - EPSILON K) :=
  le_max_right _ _

theorem clipByValue_le (x : K) : clipByValue x (EPSILON K) (1 - EPSILON K) ≤ 1 - EPSILON K :=
  max_le (min_le_right _ _) EPSILON_le_one_sub

theorem clipByValue_of_mem (x : K) (h1 : EPSILON K ≤ x) (h2 : x ≤ 1 - EPSILON K) :
    clipByValue x (EPSILON K) (1 - EPSILON K) = x := by
  unfold clipByValue
  rw [min_eq_left h2, max_eq_left h1]

theorem P_adj_pos {n : ℕ} (P : Fin n → K) (i : Fin n) : 0 < P_adj P i :=
  lt_of_lt_of_le EPSILON_pos (clipByValue_ge (P i))

theorem one_sub_P_adj_pos {n : ℕ} (P : Fin n → K) (i : Fin n) : 0 < 1 - P_adj P i := by
  have h := clipByValue_le (P i)
  have h0 := EPSILON_pos (K := K)
  unfold P_adj
  linarith

theorem sum_ex_pos {n : ℕ} (ex : K → K) (hex : ∀ x, 0 < ex x) (x : Fin n → K)
    (hn : 0 < n) : 0 < ∑ j, ex (x j) := by
  haveI : Nonempty (Fin n) := ⟨⟨0, hn⟩⟩
  exact Finset.sum_pos (fun j _ => hex (x j)) Finset.univ_nonempty

theorem sum_ex_nonneg {n : ℕ} (ex : K → K) (hex : ∀ x, 0 < ex x) (x : Fin n → K) :
    0 ≤ ∑ j, ex (x j) :=
  Finset.sum_nonneg (fun j _ => (hex (x j)).le)

theorem softmax_nonneg {n : ℕ} (ex : K → K) (hex : ∀ x, 0 < ex x) (x : Fin n → K)
    (i : Fin n) : 0 ≤ softmax ex x i :=
  div_nonneg (hex (x i)).le (sum_ex_nonneg ex hex x)

theorem softmax_pos {n : ℕ} (ex : K → K) (hex : ∀ x, 0 < ex x) (x : Fin n → K)
    (i : Fin n) : 0 < softmax ex x i :=
  div_pos (hex (x i)) (sum_ex_pos ex hex x (lt_of_le_of_lt (Nat.zero_le _) i.isLt))

theorem softmax_sum {n : ℕ} (ex : K → K) (hex : ∀ x, 0 < ex x) (x : Fin n → K)
    (hn : 0 < n) : ∑ i, softmax ex x i = 1 := by
  unfold softmax
  rw [← Finset.sum_div]
  exact div_self (sum_ex_pos ex hex x hn).ne.symm

theorem softmax_sum_le_one {n : ℕ} (ex : K → K) (hex : ∀ x, 0 < ex x)
    (x : Fin n → K) : ∑ i, softmax ex x i ≤ 1 := by
  rcases Nat.eq_zero_or_pos n with h | h
  · subst h; simp
  · exact (softmax_sum ex hex x h).le

theorem f_yes_add_f_no {n : ℕ} (ex : K → K) (hex : ∀ x, 0 < ex x) (ps : Params K n) :
    f_yes ex ps + f_no ex ps = 1 := by
  have h := softmax_sum ex hex ![ps.theta_yes, ps.theta_no] (by norm_num)
  rw [Fin.sum_univ_two] at h
  exact h

theorem f_yes_pos {n : ℕ} (ex : K → K) (hex : ∀ x, 0 < ex x) (ps : Params K n) :
    0 < f_yes ex ps := softmax_pos ex hex _ 0

theorem f_no_pos {n : ℕ} (ex : K → K) (hex : ∀ x, 0 < ex x) (ps : Params K n) :
    0 < f_no ex ps := softmax_pos ex hex _ 1

/-- The yes-side shares cost `(Σ alpha_yes) * f_yes * W` at the adjusted prices. -/
theorem yes_cost {n : ℕ} (ex : K → K) (W : K) (Padj : Fin n → K) (ps : Params K n)
    (hP : ∀ i, Padj i ≠ 0) :
    ∑ i, n_yes ex W Padj ps i * Padj i = (∑ i, alpha_yes ex ps i) * (f_yes ex ps * W) := by
  rw [Finset.sum_mul]
  refine Finset.sum_congr rfl (fun i _ => ?_)
  unfold n_yes
  field_simp [hP i]
  ring

/-- The no-side shares cost `(Σ alpha_no) * f_no * W` at the adjusted prices. -/
theorem no_cost {n : ℕ} (ex : K → K) (W : K) (Padj : Fin n → K) (ps : Params K n)
    (hP : ∀ i, 1 - Padj i ≠ 0) :
    ∑ i, n_no ex W Padj ps i * (1 - Padj i) = (∑ i, alpha_no ex ps i) * (f_no ex ps * W) := by
  rw [Finset.sum_mul]
  refine Finset.sum_congr rfl (fun i _ => ?_)
  unfold n_no
  field_simp [hP i]
  ring

/-- With at least one event the gross positions cost exactly `W`. -/
theorem gross_cost_eq {n : ℕ} (ex : K → K) (hex : ∀ x, 0 < ex x) (W : K)
    (P : Fin n → K) (ps : Params K n) (hn : 0 < n) :
    ∑ i, n_yes ex W (P_adj P) ps i * P_adj P i
      + ∑ i, n_no ex W (P_adj P) ps i * (1 - P_adj P i) = W := by
  rw [yes_cost ex W _ ps (fun i => (P_adj_pos P i).ne.symm),
    no_cost ex W _ ps (fun i => (one_sub_P_adj_pos P i).ne.symm)]
  unfold alpha_yes alpha_no
  rw [softmax_sum ex hex _ hn, softmax_sum ex hex _ hn]
  have h := f_yes_add_f_no ex hex ps
  linear_combination W * h

end Lemmas


theorem n_yes_pos {K : Type} [LinearOrderedField K] {n : ℕ} (ex : K → K)
    (hex : ∀ x, 0 < ex x) (W : K) (hW : 0 < W) (P : Fin n → K) (ps : Params K n)
    (i : Fin n) : 0 < n_yes ex W (P_adj P) ps i :=
  div_pos (mul_pos (mul_pos (softmax_pos ex hex _ i) (f_yes_pos ex hex ps)) hW)
    (P_adj_pos P i)

theorem n_no_pos {K : Type} [LinearOrderedField K] {n : ℕ} (ex : K → K)
    (hex : ∀ x, 0 < ex x) (W : K) (hW : 0 < W) (P : Fin n → K) (ps : Params K n)
    (i : Fin n) : 0 < n_no ex W (P_adj P) ps i :=
  div_pos (mul_pos (mul_pos (softmax_pos ex hex _ i) (f_no_pos ex hex ps)) hW)
    (one_sub_P_adj_pos P i)

/-! ## Theorems: the parameterisation -/

/-- C3. Feasibility of the softmax reparameterisation: for every wealth
`W ≥ 0`, every price vector (clipped to `P_adj`) and every real parameter
values, all share counts `n_yes[i]` and `n_no[i]` are non-negative and the
capital they cost at the adjusted prices is at most `W`. -/
theorem feasible_allocation {n : ℕ} (W : ℝ) (hW : 0 ≤ W) (P : Fin n → ℝ)
    (ps : Params ℝ n) :
    (∀ i, 0 ≤ n_yes Real.exp W (P_adj P) ps i)
      ∧ (∀ i, 0 ≤ n_no Real.exp W (P_adj P) ps i)
      ∧ ∑ i, n_yes Real.exp W (P_adj P) ps i * P_adj P i
          + ∑ i, n_no Real.exp W (P_adj P) ps i * (1 - P_adj P i) ≤ W := by
  have hex : ∀ x : ℝ, 0 < Real.exp x := Real.exp_pos
  refine ⟨fun i => ?_, fun i => ?_, ?_⟩
  · exact div_nonneg (mul_nonneg (mul_nonneg (softmax_nonneg _ hex _ i)
      (f_yes_pos _ hex ps).le) hW) (P_adj_pos P i).le
  · exact div_nonneg (mul_nonneg (mul_nonneg (softmax_nonneg _ hex _ i)
      (f_no_pos _ hex ps).le) hW) (one_sub_P_adj_pos P i).le
  · rw [yes_cost _ W _ ps (fun i => (P_adj_pos P i).ne.symm),
      no_cost _ W _ ps (fun i => (one_sub_P_adj_pos P i).ne.symm)]
    have hy := softmax_sum_le_one Real.exp hex ps.phi_yes
    have hn := softmax_sum_le_one Real.exp hex ps.phi_no
    have hf := f_yes_add_f_no Real.exp hex ps
    have h1 : (∑ i, alpha_yes Real.exp ps i) * (f_yes Real.exp ps * W)
        ≤ 1 * (f_yes Real.exp ps * W) :=
      mul_le_mul_of_nonneg_right hy (mul_nonneg (f_yes_pos _ hex ps).le hW)
    have h2 : (∑ i, alpha_no Real.exp ps i) * (f_no Real.exp ps * W)
        ≤ 1 * (f_no Real.exp ps * W) :=
      mul_le_mul_of_nonneg_right hn (mul_nonneg (f_no_pos _ hex ps).le hW)
    have h3 : 1 * (f_yes Real.exp ps * W) + 1 * (f_no Real.exp ps * W) = W := by
      linear_combination W * hf
    linarith

/-- Witness of C3: one event at price 0.3, wealth 100, parameters zero. -/
theorem feasible_allocation_witness :
    (0 : ℝ) ≤ 100
      ∧ ((∀ i, 0 ≤ n_yes Real.exp 100 (P_adj ![3 / 10]) (Params.init ℝ 1) i)
        ∧ (∀ i, 0 ≤ n_no Real.exp 100 (P_adj ![3 / 10]) (Params.init ℝ 1) i)
        ∧ ∑ i, n_yes Real.exp 100 (P_adj ![3 / 10]) (Params.init ℝ 1) i
              * P_adj ![(3 / 10 : ℝ)] i
            + ∑ i, n_no Real.exp 100 (P_adj ![3 / 10]) (Params.init ℝ 1) i
              * (1 - P_adj ![(3 / 10 : ℝ)] i) ≤ 100) :=
  ⟨by norm_num, feasible_allocation 100 (by norm_num) ![3 / 10] (Params.init ℝ 1)⟩

/-- C4. Simplex invariant: for every real `theta_yes`, `theta_no` and every
`phi_yes`, `phi_no` of length `numEvents ≥ 1`, the fractions `f_yes`, `f_no`
are non-negative and sum to one, and `alpha_yes`, `alpha_no` each have
non-negative entries that sum to one. -/
theorem simplex_invariant {n : ℕ} (hn : 1 ≤ n) (ps : Params ℝ n) :
    0 ≤ f_yes Real.exp ps ∧ 0 ≤ f_no Real.exp ps
      ∧ f_yes Real.exp ps + f_no Real.exp ps = 1
      ∧ (∀ i, 0 ≤ alpha_yes Real.exp ps i) ∧ ∑ i, alpha_yes Real.exp ps i = 1
      ∧ (∀ i, 0 ≤ alpha_no Real.exp ps i) ∧ ∑ i, alpha_no Real.exp ps i = 1 :=
  ⟨(f_yes_pos _ Real.exp_pos ps).le, (f_no_pos _ Real.exp_pos ps).le,
    f_yes_add_f_no _ Real.exp_pos ps,
    fun i => softmax_nonneg _ Real.exp_pos _ i, softmax_sum _ Real.exp_pos _ hn,
    fun i => softmax_nonneg _ Real.exp_pos _ i, softmax_sum _ Real.exp_pos _ hn⟩

/-- Witness of C4: two events, parameters `1, -2, [0, 3], [5, -1]`. -/
theorem simplex_invariant_witness :
    1 ≤ 2
      ∧ (0 ≤ f_yes Real.exp (⟨1, -2, ![0, 3], ![5, -1]⟩ : Params ℝ 2)
        ∧ 0 ≤ f_no Real.exp (⟨1, -2, ![0, 3], ![5, -1]⟩ : Params ℝ 2)
        ∧ f_yes Real.exp (⟨1, -2, ![0, 3], ![5, -1]⟩ : Params ℝ 2)
            + f_no Real.exp (⟨1, -2, ![0, 3], ![5, -1]⟩ : Params ℝ 2) = 1
        ∧ (∀ i, 0 ≤ alpha_yes Real.exp (⟨1, -2, ![0, 3], ![5, -1]⟩ : Params ℝ 2) i)
        ∧ ∑ i, alpha_yes Real.exp (⟨1, -2, ![0, 3], ![5, -1]⟩ : Params ℝ 2) i = 1
        ∧ (∀ i, 0 ≤ alpha_no Real.exp (⟨1, -2, ![0, 3], ![5, -1]⟩ : Params ℝ 2) i)
        ∧ ∑ i, alpha_no Real.exp (⟨1, -2, ![0, 3], ![5, -1]⟩ : Params ℝ 2) i = 1) :=
  ⟨by norm_num, simplex_invariant (by norm_num) ⟨1, -2, ![0, 3], ![5, -1]⟩⟩

/-- C5. Price clipping: every raw price value that passes parsing (any number
that is not `NaN`: zero, one, negative values, values above one, infinities) is
clipped to a finite adjusted price in `[EPSILON, 1 - EPSILON]`, so the adjusted
price and one minus the adjusted price are both strictly positive; for a finite
raw price `x` the adjusted price is `clipByValue x EPSILON (1 - EPSILON)`, the
entry of `P_adj`. -/
theorem price_clipping_range (v : JsNum ℝ) (hv : v.isNaN = false) :
    ∃ c : ℝ, v.clipByValue (EPSILON ℝ) (1 - EPSILON ℝ) = JsNum.finite c
      ∧ EPSILON ℝ ≤ c ∧ c ≤ 1 - EPSILON ℝ ∧ 0 < c ∧ 0 < 1 - c
      ∧ ∀ x, v = JsNum.finite x → c = P_adj (fun _ : Fin 1 => x) 0 := by
  have h0 := EPSILON_pos (K := ℝ)
  have h1 := EPSILON_le_one_sub (K := ℝ)
  have key : ∀ c : ℝ, EPSILON ℝ ≤ c → c ≤ 1 - EPSILON ℝ →
      EPSILON ℝ ≤ c ∧ c ≤ 1 - EPSILON ℝ ∧ 0 < c ∧ 0 < 1 - c :=
    fun c h2 h3 => ⟨h2, h3, by linarith, by linarith⟩
  cases v with
  | finite x =>
    obtain ⟨k1, k2, k3, k4⟩ := key _ (clipByValue_ge x) (clipByValue_le x)
    exact ⟨_, rfl, k1, k2, k3, k4, fun y hy => by cases hy; rfl⟩
  | posInf =>
    obtain ⟨k1, k2, k3, k4⟩ := key _ (le_max_right (1 - EPSILON ℝ) (EPSILON ℝ))
      (max_le le_rfl h1)
    exact ⟨_, rfl, k1, k2, k3, k4, fun y hy => by cases hy⟩
  | negInf =>
    obtain ⟨k1, k2, k3, k4⟩ := key (EPSILON ℝ) le_rfl h1
    exact ⟨_, rfl, k1, k2, k3, k4, fun y hy => by cases hy⟩
  | nan => simp [JsNum.isNaN] at hv

/-- Witness of C5: the raw price `0`. -/
theorem price_clipping_range_witness :
    (JsNum.finite (0 : ℝ)).isNaN = false
      ∧ ∃ c : ℝ, (JsNum.finite (0 : ℝ)).clipByValue (EPSILON ℝ) (1 - EPSILON ℝ)
            = JsNum.finite c
          ∧ EPSILON ℝ ≤ c ∧ c ≤ 1 - EPSILON ℝ ∧ 0 < c ∧ 0 < 1 - c
          ∧ ∀ x, JsNum.finite (0 : ℝ) = JsNum.finite x
              → c = P_adj (fun _ : Fin 1 => x) 0 :=
  ⟨rfl, price_clipping_range (JsNum.finite 0) rfl⟩

/-- C9. The reported unallocated cash is zero: for every wealth, every price
vector (of at least one event) and every real parameter values,
`displayResults` computes `total_capital_used_net + cash_from_cancel = W` and
hence `cash_unallocated = 0`; the gross positions cost `W`, and every cancelled
pair frees `canceled[i] * P_adj[i] + canceled[i] * (1 - P_adj[i]) = canceled[i]`. -/
theorem unallocated_cash_zero {n : ℕ} (hn : 1 ≤ n) (W : ℝ) (P : Fin n → ℝ)
    (ps : Params ℝ n) :
    let r := displayResults Real.exp W (P_adj P) ps
    r.total_capital_used_net + r.cash_from_cancel = W
      ∧ r.cash_unallocated = 0
      ∧ ∑ i, n_yes Real.exp W (P_adj P) ps i * P_adj P i
          + ∑ i, n_no Real.exp W (P_adj P) ps i * (1 - P_adj P i) = W
      ∧ ∀ i, r.canceled_shares i * P_adj P i + r.canceled_shares i * (1 - P_adj P i)
          = r.canceled_shares i := by
  have hg := gross_cost_eq Real.exp Real.exp_pos W P ps hn
  have hsum : (displayResults Real.exp W (P_adj P) ps).total_capital_used_net
      + (displayResults Real.exp W (P_adj P) ps).cash_from_cancel = W := by
    refine Eq.trans ?_ hg
    simp only [displayResults]
    rw [← Finset.sum_add_distrib, ← Finset.sum_add_distrib, ← Finset.sum_add_distrib]
    refine Finset.sum_congr rfl (fun i _ => ?_)
    ring
  refine ⟨hsum, ?_, hg, fun i => by ring⟩
  have hdef : (displayResults Real.exp W (P_adj P) ps).cash_unallocated
      = W - (displayResults Real.exp W (P_adj P) ps).total_capital_used_net
        - (displayResults Real.exp W (P_adj P) ps).cash_from_cancel := rfl
  rw [hdef]
  linarith

/-- Witness of C9: one event at price 0.3, wealth 100, parameters zero. -/
theorem unallocated_cash_zero_witness :
    1 ≤ 1
      ∧ ((displayResults Real.exp 100 (P_adj ![(3 / 10 : ℝ)])
            (Params.init ℝ 1)).total_capital_used_net
          + (displayResults Real.exp 100 (P_adj ![(3 / 10 : ℝ)])
            (Params.init ℝ 1)).cash_from_cancel = 100
        ∧ (displayResults Real.exp 100 (P_adj ![(3 / 10 : ℝ)])
            (Params.init ℝ 1)).cash_unallocated = 0) :=
  ⟨le_rfl,
    (unallocated_cash_zero le_rfl 100 ![3 / 10] (Params.init ℝ 1)).1,
    (unallocated_cash_zero le_rfl 100 ![3 / 10] (Params.init ℝ 1)).2.1⟩


/-! ## Theorems: the sampled wealth ratio -/

section WealthRatio

variable {K : Type} [LinearOrderedField K]

theorem softmax_nonneg_of_nonneg {n : ℕ} (ex : K → K) (hex : ∀ x, 0 ≤ ex x)
    (x : Fin n → K) (i : Fin n) : 0 ≤ softmax ex x i :=
  div_nonneg (hex (x i)) (Finset.sum_nonneg (fun j _ => hex (x j)))

theorem softmax_sum_of_pos {n : ℕ} (ex : K → K) (x : Fin n → K)
    (h : 0 < ∑ j, ex (x j)) : ∑ i, softmax ex x i = 1 := by
  unfold softmax
  rw [← Finset.sum_div]
  exact div_self h.ne.symm

theorem f_yes_add_f_no_of_pos {n : ℕ} (ex : K → K) (ps : Params K n)
    (h : 0 < ex ps.theta_yes + ex ps.theta_no) : f_yes ex ps + f_no ex ps = 1 := by
  have hs : 0 < ∑ j, ex (![ps.theta_yes, ps.theta_no] j) := by
    rw [Fin.sum_univ_two]; exact h
  have h1 := softmax_sum_of_pos ex ![ps.theta_yes, ps.theta_no] hs
  rw [Fin.sum_univ_two] at h1
  exact h1

/-- The gross positions cost `W` as soon as the three softmax denominators
are positive. -/
theorem gross_cost_eq_of_pos {n : ℕ} (ex : K → K) (W : K) (P : Fin n → K)
    (ps : Params K n) (hθ : 0 < ex ps.theta_yes + ex ps.theta_no)
    (hφy : 0 < ∑ j, ex (ps.phi_yes j)) (hφn : 0 < ∑ j, ex (ps.phi_no j)) :
    ∑ i, n_yes ex W (P_adj P) ps i * P_adj P i
      + ∑ i, n_no ex W (P_adj P) ps i * (1 - P_adj P i) = W := by
  rw [yes_cost ex W _ ps (fun i => (P_adj_pos P i).ne.symm),
    no_cost ex W _ ps (fun i => (one_sub_P_adj_pos P i).ne.symm)]
  unfold alpha_yes alpha_no
  rw [softmax_sum_of_pos ex _ hφy, softmax_sum_of_pos ex _ hφn]
  have h := f_yes_add_f_no_of_pos ex ps hθ
  linear_combination W * h

end WealthRatio

/-- C10, as the code has it. When no price needs clipping the sampled wealth
ratio is the payout of the winning sides over `W`, and it is non-negative, not
strictly positive: for wealth `W > 0`, raw prices all in
`[EPSILON, 1 - EPSILON]` (so `P_adj = P`), any exponential with non-negative
values, any parameter values that leave the three softmax denominators
positive, and any outcome batch with entries in `{0, 1}`, the wealth ratio
`1 + G / W` of every sample equals
`(1 / W) * Σ_i (y[i] * n_yes[i] + (1 - y[i]) * n_no[i])` and is at least `0`. -/
theorem wealth_ratio_is_payout {K : Type} [LinearOrderedField K] {B n : ℕ}
    (ex : K → K) (hex : ∀ x, 0 ≤ ex x) (W : K) (hW : 0 < W)
    (P : Fin n → K) (hP : ∀ i, EPSILON K ≤ P i ∧ P i ≤ 1 - EPSILON K)
    (ps : Params K n) (hθ : 0 < ex ps.theta_yes + ex ps.theta_no)
    (hφy : 0 < ∑ j, ex (ps.phi_yes j)) (hφn : 0 < ∑ j, ex (ps.phi_no j))
    (Y : Fin B → Fin n → K) (hY : ∀ b i, Y b i = 0 ∨ Y b i = 1) (b : Fin B) :
    P_adj P = P
      ∧ wealth_ratio_batch ex W P (P_adj P) ps Y b
          = (1 / W) * ∑ i, (Y b i * n_yes ex W (P_adj P) ps i
              + (1 - Y b i) * n_no ex W (P_adj P) ps i)
      ∧ 0 ≤ wealth_ratio_batch ex W P (P_adj P) ps Y b := by
  have hadj : P_adj P = P := funext fun i => clipByValue_of_mem (P i) (hP i).1 (hP i).2
  have hg := gross_cost_eq_of_pos ex W P ps hθ hφy hφn
  have hG : G_batch ex W P (P_adj P) ps Y b
      + (∑ i, n_yes ex W (P_adj P) ps i * P_adj P i
          + ∑ i, n_no ex W (P_adj P) ps i * (1 - P_adj P i))
      = ∑ i, (Y b i * n_yes ex W (P_adj P) ps i
          + (1 - Y b i) * n_no ex W (P_adj P) ps i) := by
    unfold G_batch
    rw [← Finset.sum_add_distrib, ← Finset.sum_add_distrib]
    refine Finset.sum_congr rfl (fun i _ => ?_)
    have hi : P_adj P i = P i := congrFun hadj i
    rw [hi]
    ring
  rw [hg] at hG
  have heq : wealth_ratio_batch ex W P (P_adj P) ps Y b
      = (1 / W) * ∑ i, (Y b i * n_yes ex W (P_adj P) ps i
          + (1 - Y b i) * n_no ex W (P_adj P) ps i) := by
    unfold wealth_ratio_batch
    rw [← hG]
    field_simp
  have hfy : 0 ≤ f_yes ex ps := softmax_nonneg_of_nonneg ex hex _ 0
  have hfn : 0 ≤ f_no ex ps := softmax_nonneg_of_nonneg ex hex _ 1
  have hny : ∀ i, 0 ≤ n_yes ex W (P_adj P) ps i := fun i =>
    div_nonneg (mul_nonneg (mul_nonneg (softmax_nonneg_of_nonneg ex hex _ i) hfy) hW.le)
      (P_adj_pos P i).le
  have hnn : ∀ i, 0 ≤ n_no ex W (P_adj P) ps i := fun i =>
    div_nonneg (mul_nonneg (mul_nonneg (softmax_nonneg_of_nonneg ex hex _ i) hfn) hW.le)
      (one_sub_P_adj_pos P i).le
  refine ⟨hadj, heq, ?_⟩
  rw [heq]
  refine mul_nonneg (one_div_pos.mpr hW).le (Finset.sum_nonneg (fun i _ => ?_))
  rcases hY b i with h | h
  · rw [h]
    have := hnn i
    linarith
  · rw [h]
    have := hny i
    linarith

theorem expUnderflow_nonneg (x : ℚ) : 0 ≤ expUnderflow x := by
  unfold expUnderflow
  split_ifs with h1 h2
  · exact le_rfl
  · have : 0 < 1 - x + x ^ 2 / 2 := by nlinarith [sq_nonneg x]
    exact (one_div_pos.mpr this).le
  · have hx : 0 ≤ x := not_lt.mp h2
    nlinarith [sq_nonneg x]

/-- Witness of C10: one event at price 0.5, wealth 100, logits `theta_yes = 0`,
`theta_no = -200` and `phi_yes = phi_no = [0]`, the underflowing exponential,
one sample whose outcome is no. -/
theorem wealth_ratio_is_payout_witness :
    (∀ x, 0 ≤ expUnderflow x) ∧ (0 : ℚ) < 100
      ∧ (∀ i : Fin 1, EPSILON ℚ ≤ (fun _ => 1 / 2 : Fin 1 → ℚ) i
          ∧ (fun _ => 1 / 2 : Fin 1 → ℚ) i ≤ 1 - EPSILON ℚ)
      ∧ 0 < expUnderflow 0 + expUnderflow (-200)
      ∧ 0 < ∑ j : Fin 1, expUnderflow ((fun _ => 0 : Fin 1 → ℚ) j)
      ∧ (∀ (b i : Fin 1), (fun (_ : Fin 1) (_ : Fin 1) => (0 : ℚ)) b i = 0
          ∨ (fun (_ : Fin 1) (_ : Fin 1) => (0 : ℚ)) b i = 1)
      ∧ (P_adj (fun _ => 1 / 2 : Fin 1 → ℚ) = fun _ => 1 / 2)
      ∧ wealth_ratio_batch expUnderflow 100 (fun _ => 1 / 2)
          (P_adj fun _ : Fin 1 => (1 / 2 : ℚ)) ⟨0, -200, fun _ => 0, fun _ => 0⟩
          (fun (_ : Fin 1) (_ : Fin 1) => (0 : ℚ)) 0
        = (1 / 100) * ∑ i : Fin 1,
            ((fun (_ : Fin 1) (_ : Fin 1) => (0 : ℚ)) 0 i
                * n_yes expUnderflow 100 (P_adj fun _ : Fin 1 => (1 / 2 : ℚ))
                    ⟨0, -200, fun _ => 0, fun _ => 0⟩ i
              + (1 - (fun (_ : Fin 1) (_ : Fin 1) => (0 : ℚ)) 0 i)
                * n_no expUnderflow 100 (P_adj fun _ : Fin 1 => (1 / 2 : ℚ))
                    ⟨0, -200, fun _ => 0, fun _ => 0⟩ i)
      ∧ 0 ≤ wealth_ratio_batch expUnderflow 100 (fun _ => 1 / 2)
          (P_adj fun _ : Fin 1 => (1 / 2 : ℚ)) ⟨0, -200, fun _ => 0, fun _ => 0⟩
          (fun (_ : Fin 1) (_ : Fin 1) => (0 : ℚ)) 0 :=
  ⟨expUnderflow_nonneg, by norm_num, fun _ => by unfold EPSILON; norm_num,
    by norm_num [expUnderflow], by norm_num [expUnderflow],
    fun _ _ => Or.inl rfl,
    wealth_ratio_is_payout expUnderflow expUnderflow_nonneg 100 (by norm_num)
      (fun _ => 1 / 2) (fun _ => by unfold EPSILON; norm_num)
      ⟨0, -200, fun _ => 0, fun _ => 0⟩
      (by norm_num [expUnderflow]) (by norm_num [expUnderflow])
      (by norm_num [expUnderflow])
      (fun _ _ => 0) (fun _ _ => Or.inl rfl) 0⟩

/-- C10, as stated, fails. One event at price 0.5, wealth 100, logits
`theta_yes = 0`, `theta_no = -200`, `phi_yes = phi_no = [0]`, outcome `0`: the
price needs no clipping and the outcome is in `{0, 1}`, but the exponential of
`-200` underflows to `0`, so `f_no = 0`, the no side holds no shares, and the
wealth ratio `1 + G / W` is exactly `0`, not strictly positive. -/
theorem wealth_ratio_zero_on_underflow :
    (0 : ℚ) < 100
      ∧ (EPSILON ℚ ≤ 1 / 2 ∧ (1 / 2 : ℚ) ≤ 1 - EPSILON ℚ)
      ∧ expUnderflow 0 = 1 ∧ expUnderflow (-200) = 0
      ∧ f_no expUnderflow (⟨0, -200, ![0], ![0]⟩ : Params ℚ 1) = 0
      ∧ n_yes expUnderflow 100 (P_adj ![1 / 2]) (⟨0, -200, ![0], ![0]⟩ : Params ℚ 1) 0
          = 200
      ∧ n_no expUnderflow 100 (P_adj ![1 / 2]) (⟨0, -200, ![0], ![0]⟩ : Params ℚ 1) 0
          = 0
      ∧ wealth_ratio_batch expUnderflow 100 ![1 / 2] (P_adj ![1 / 2])
          (⟨0, -200, ![0], ![0]⟩ : Params ℚ 1) (fun (_ : Fin 1) (_ : Fin 1) => (0 : ℚ)) 0
          = 0
      ∧ ¬(0 < wealth_ratio_batch expUnderflow 100 ![1 / 2] (P_adj ![1 / 2])
          (⟨0, -200, ![0], ![0]⟩ : Params ℚ 1)
          (fun (_ : Fin 1) (_ : Fin 1) => (0 : ℚ)) 0) := by
  have hP : P_adj ![(1 / 2 : ℚ)] 0 = 1 / 2 :=
    clipByValue_of_mem (1 / 2) (by unfold EPSILON; norm_num) (by unfold EPSILON; norm_num)
  have e0 : expUnderflow 0 = 1 := by norm_num [expUnderflow]
  have e200 : expUnderflow (-200) = 0 := by norm_num [expUnderflow]
  have hfy : f_yes expUnderflow (⟨0, -200, ![0], ![0]⟩ : Params ℚ 1) = 1 := by
    simp [f_yes, f_fractions, softmax, Fin.sum_univ_two, e0, e200]
  have hfn : f_no expUnderflow (⟨0, -200, ![0], ![0]⟩ : Params ℚ 1) = 0 := by
    simp [f_no, f_fractions, softmax, Fin.sum_univ_two, e0, e200]
  have hay : alpha_yes expUnderflow (⟨0, -200, ![0], ![0]⟩ : Params ℚ 1) 0 = 1 := by
    simp [alpha_yes, softmax, e0]
  have han : alpha_no expUnderflow (⟨0, -200, ![0], ![0]⟩ : Params ℚ 1) 0 = 1 := by
    simp [alpha_no, softmax, e0]
  have hny : n_yes expUnderflow 100 (P_adj ![1 / 2])
      (⟨0, -200, ![0], ![0]⟩ : Params ℚ 1) 0 = 200 := by
    unfold n_yes
    rw [hay, hfy, hP]
    norm_num
  have hnn : n_no expUnderflow 100 (P_adj ![1 / 2])
      (⟨0, -200, ![0], ![0]⟩ : Params ℚ 1) 0 = 0 := by
    unfold n_no
    rw [han, hfn, hP]
    norm_num
  have hw : wealth_ratio_batch expUnderflow 100 ![1 / 2] (P_adj ![1 / 2])
      (⟨0, -200, ![0], ![0]⟩ : Params ℚ 1) (fun (_ : Fin 1) (_ : Fin 1) => (0 : ℚ)) 0
      = 0 := by
    unfold wealth_ratio_batch G_batch
    rw [Fin.sum_univ_one, hny, hnn]
    norm_num
  refine ⟨by norm_num, ⟨by unfold EPSILON; norm_num, by unfold EPSILON; norm_num⟩,
    e0, e200, hfn, hny, hnn, hw, ?_⟩
  rw [hw]
  exact lt_irrefl 0

/-! ## Theorems: the run controller -/

theorem JsNum.neg_isNaN {K : Type} [Neg K] (v : JsNum K) : v.neg.isNaN = v.isNaN := by
  cases v <;> rfl

/-- The loop from iteration `i` on, when the first `NaN` loss comes `d`
iterations later and the loop has more than `d` iterations left. -/
theorem trainLoop_first_nan {K : Type} [Neg K] (iterations : ℤ) (lossAt : ℕ → JsNum K) :
    ∀ (d r i : ℕ), d < r → (∀ j, j < d → (lossAt (i + j)).isNaN = false) →
      (lossAt (i + d)).isNaN = true →
      (∃ pre, trainLoop iterations lossAt r i
          = pre ++ [Event.minimize (i + d), Event.logDivergence (i + d)])
        ∧ (∀ j, Event.minimize j ∈ trainLoop iterations lossAt r i ↔ i ≤ j ∧ j ≤ i + d)
        ∧ Event.displayResults ∉ trainLoop iterations lossAt r i
        ∧ Event.logFinished ∉ trainLoop iterations lossAt r i := by
  intro d
  induction d with
  | zero =>
    intro r i hr _ hnan
    obtain ⟨r, rfl⟩ : ∃ r', r = r' + 1 := ⟨r - 1, by omega⟩
    simp only [Nat.add_zero] at hnan ⊢
    have hT : trainLoop iterations lossAt (r + 1) i
        = [Event.minimize i, Event.logDivergence i] := by
      simp [trainLoop, JsNum.neg_isNaN, hnan]
    rw [hT]
    refine ⟨⟨[], rfl⟩, fun j => ?_, by simp, by simp⟩
    simp only [List.mem_cons, Event.minimize.injEq, List.mem_singleton, reduceCtorEq,
      or_false, List.not_mem_nil]
    omega
  | succ d ih =>
    intro r i hr hfirst hnan
    obtain ⟨r, rfl⟩ : ∃ r', r = r' + 1 := ⟨r - 1, by omega⟩
    have h0 : (lossAt i).isNaN = false := by simpa using hfirst 0 (Nat.succ_pos d)
    have hnan1 : (lossAt (i + 1 + d)).isNaN = true := by
      rw [show i + 1 + d = i + (d + 1) by omega]; exact hnan
    have hfirst1 : ∀ j, j < d → (lossAt (i + 1 + j)).isNaN = false := by
      intro j hj
      rw [show i + 1 + j = i + (j + 1) by omega]
      exact hfirst (j + 1) (by omega)
    obtain ⟨⟨pre, hpre⟩, hmin, hdisp, hfin⟩ := ih r (i + 1) (by omega) hfirst1 hnan1
    have hT : trainLoop iterations lossAt (r + 1) i
        = Event.minimize i ::
          ((if i < 10 ∨ i % 100 = 0 ∨ (i : ℤ) = iterations - 1 then
              [Event.logIter i (lossAt i).neg, Event.nextFrame]
            else []) ++ trainLoop iterations lossAt r (i + 1)) := by
      simp [trainLoop, JsNum.neg_isNaN, h0]
    rw [hT]
    refine ⟨⟨Event.minimize i ::
        ((if i < 10 ∨ i % 100 = 0 ∨ (i : ℤ) = iterations - 1 then
            [Event.logIter i (lossAt i).neg, Event.nextFrame]
          else []) ++ pre), ?_⟩, fun j => ?_, ?_, ?_⟩
    · rw [hpre, show i + 1 + d = i + (d + 1) by omega]
      simp
    · have := hmin j
      split_ifs <;> simp [this] <;> omega
    · split_ifs <;> simp [hdisp]
    · split_ifs <;> simp [hfin]

/-- C6, as the code has it. The guard of the training loop tests the loss
for `NaN`: for every iteration count `N` and every sequence of losses, if
`k < N` is the first iteration whose loss is `NaN`, the loop ends at iteration
`k` with the divergence diagnostic, the optimiser steps taken are exactly
those of iterations `0` to `k`, and `displayResults` is not called. -/
theorem divergence_guard_on_nan {K : Type} [Neg K] (iterations : ℤ)
    (lossAt : ℕ → JsNum K) (k : ℕ) (hk : (k : ℤ) < iterations)
    (hfirst : ∀ j, j < k → (lossAt j).isNaN = false)
    (hnan : (lossAt k).isNaN = true) :
    (∃ pre, optimizationLoop iterations lossAt
        = pre ++ [Event.minimize k, Event.logDivergence k])
      ∧ (∀ j, Event.minimize j ∈ optimizationLoop iterations lossAt ↔ j ≤ k)
      ∧ Event.displayResults ∉ optimizationLoop iterations lossAt := by
  have hr : k < iterations.toNat := by omega
  have h := trainLoop_first_nan iterations lossAt k iterations.toNat 0 hr
    (fun j hj => by simpa using hfirst j hj) (by simpa using hnan)
  simp only [Nat.zero_add, Nat.zero_le, true_and] at h
  exact ⟨h.1, h.2.1, h.2.2.1⟩

/-- Witness of C6: three iterations, the loss of iteration 1 is `NaN`. -/
theorem divergence_guard_on_nan_witness :
    ((1 : ℕ) : ℤ) < 3
      ∧ (∀ j, j < 1 →
          ((fun i => if i = 1 then JsNum.nan else JsNum.finite 0 : ℕ → JsNum ℚ) j).isNaN
            = false)
      ∧ ((fun i => if i = 1 then JsNum.nan else JsNum.finite 0 : ℕ → JsNum ℚ) 1).isNaN
          = true
      ∧ Event.displayResults ∉ optimizationLoop 3
          (fun i => if i = 1 then JsNum.nan else JsNum.finite 0 : ℕ → JsNum ℚ) :=
  ⟨by decide, fun j hj => by interval_cases j; rfl, rfl,
    (divergence_guard_on_nan 3 (fun i => if i = 1 then JsNum.nan else JsNum.finite 0) 1
      (by decide) (fun j hj => by interval_cases j; rfl) rfl).2.2⟩

/-- C6, as stated, fails. With three iterations and the losses `0, +Infinity,
0`, iteration 1 is the first whose loss is not finite, and yet the loop does
not stop there: no divergence diagnostic is logged, the optimiser step of
iteration 2 is taken, and `displayResults` is called. -/
theorem divergence_guard_misses_infinity :
    ((fun i => if i = 1 then JsNum.posInf else JsNum.finite 0 : ℕ → JsNum ℚ) 0).isFinite
        = true
      ∧ ((fun i => if i = 1 then JsNum.posInf else JsNum.finite 0 : ℕ → JsNum ℚ) 1).isFinite
        = false
      ∧ ((1 : ℕ) : ℤ) < 3
      ∧ Event.logDivergence 1 ∉ optimizationLoop 3
          (fun i => if i = 1 then JsNum.posInf else JsNum.finite 0 : ℕ → JsNum ℚ)
      ∧ Event.minimize 2 ∈ optimizationLoop 3
          (fun i => if i = 1 then JsNum.posInf else JsNum.finite 0 : ℕ → JsNum ℚ)
      ∧ Event.displayResults ∈ optimizationLoop 3
          (fun i => if i = 1 then JsNum.posInf else JsNum.finite 0 : ℕ → JsNum ℚ) := by
  decide

/-- C7. Input validation of `runOptimization`: if the two inputs do not hold
the same number of comma-separated values, or either holds none, the run logs
the validation error and returns; nothing is created, no optimiser step is
taken and `displayResults` is not called. -/
theorem validation_rejects {K : Type} [Neg K] (parseFloatTrim : String → JsNum K)
    (marketPrices trueProbs : String) (iterations : ℤ) (lossAt : ℕ → JsNum K)
    (h : (parseCsv parseFloatTrim marketPrices).length
          ≠ (parseCsv parseFloatTrim trueProbs).length
        ∨ (parseCsv parseFloatTrim marketPrices).length = 0
        ∨ (parseCsv parseFloatTrim trueProbs).length = 0) :
    runOptimization parseFloatTrim marketPrices trueProbs iterations lossAt
        = [Event.clearLog, Event.logStart, Event.setButton false,
            Event.logValidationError, Event.setButton true]
      ∧ (∀ m, Event.createState m
          ∉ runOptimization parseFloatTrim marketPrices trueProbs iterations lossAt)
      ∧ (∀ i, Event.minimize i
          ∉ runOptimization parseFloatTrim marketPrices trueProbs iterations lossAt)
      ∧ Event.displayResults
          ∉ runOptimization parseFloatTrim marketPrices trueProbs iterations lossAt := by
  have hc : (parseCsv parseFloatTrim marketPrices).length = 0
      ∨ (parseCsv parseFloatTrim trueProbs).length = 0
      ∨ (parseCsv parseFloatTrim marketPrices).length
          ≠ (parseCsv parseFloatTrim trueProbs).length := by tauto
  have hrun : runOptimization parseFloatTrim marketPrices trueProbs iterations lossAt
      = [Event.clearLog, Event.logStart, Event.setButton false,
          Event.logValidationError, Event.setButton true] := by
    unfold runOptimization
    simp only [if_pos hc]
    rfl
  rw [hrun]
  exact ⟨rfl, fun m => by simp, fun i => by simp, by simp⟩

/-- Witness of C7: prices `"0.3"` against probabilities `"0.6,0.3"`, with a
number parser that knows the two numerals. -/
theorem validation_rejects_witness :
    ((parseCsv (fun s => if s = "0.3" then JsNum.finite (3 / 10 : ℚ)
            else if s = "0.6" then JsNum.finite (6 / 10) else JsNum.nan) "0.3").length
        ≠ (parseCsv (fun s => if s = "0.3" then JsNum.finite (3 / 10 : ℚ)
            else if s = "0.6" then JsNum.finite (6 / 10) else JsNum.nan) "0.6,0.3").length
      ∨ (parseCsv (fun s => if s = "0.3" then JsNum.finite (3 / 10 : ℚ)
            else if s = "0.6" then JsNum.finite (6 / 10) else JsNum.nan) "0.3").length = 0
      ∨ (parseCsv (fun s => if s = "0.3" then JsNum.finite (3 / 10 : ℚ)
            else if s = "0.6" then JsNum.finite (6 / 10) else JsNum.nan) "0.6,0.3").length
          = 0)
      ∧ runOptimization (fun s => if s = "0.3" then JsNum.finite (3 / 10 : ℚ)
            else if s = "0.6" then JsNum.finite (6 / 10) else JsNum.nan)
          "0.3" "0.6,0.3" 50 (fun _ => JsNum.finite 0)
        = [Event.clearLog, Event.logStart, Event.setButton false,
            Event.logValidationError, Event.setButton true] :=
  ⟨Or.inl (by decide),
    (validation_rejects _ "0.3" "0.6,0.3" 50 (fun _ => JsNum.finite 0)
      (Or.inl (by decide))).1⟩



/-! ## Lemmas on the expected loss of a single event -/

theorem log_EPSILON_le : Real.log (EPSILON ℝ) ≤ -1 := by
  have h3 : Real.exp 1 < 3 := lt_trans Real.exp_one_lt_d9 (by norm_num)
  have h : EPSILON ℝ ≤ Real.exp (-1) := by
    rw [Real.exp_neg, le_inv_comm₀ EPSILON_pos (Real.exp_pos 1)]
    unfold EPSILON
    norm_num
    linarith
  have := Real.log_le_log EPSILON_pos h
  rwa [Real.log_exp] at this

theorem one_le_log_three : 1 ≤ Real.log 3 := by
  rw [Real.le_log_iff_exp_le (by norm_num)]
  exact (lt_trans Real.exp_one_lt_d9 (by norm_num)).le

/-- The softmax of a single logit is one. -/
theorem softmax_single {K : Type} [LinearOrderedField K] (ex : K → K)
    (hex : ∀ x, 0 < ex x) (x : Fin 1 → K) : softmax ex x 0 = 1 := by
  have h := softmax_sum ex hex x Nat.one_pos
  rwa [Fin.sum_univ_one] at h

theorem n_yes_single (W p : ℝ) (hp : EPSILON ℝ ≤ p ∧ p ≤ 1 - EPSILON ℝ)
    (ps : Params ℝ 1) :
    n_yes Real.exp W (P_adj fun _ => p) ps 0 = f_yes Real.exp ps * W / p := by
  unfold n_yes alpha_yes P_adj
  rw [softmax_single Real.exp Real.exp_pos, clipByValue_of_mem p hp.1 hp.2, one_mul]

theorem n_no_single (W p : ℝ) (hp : EPSILON ℝ ≤ p ∧ p ≤ 1 - EPSILON ℝ)
    (ps : Params ℝ 1) :
    n_no Real.exp W (P_adj fun _ => p) ps 0 = (1 - f_yes Real.exp ps) * W / (1 - p) := by
  unfold n_no alpha_no P_adj
  rw [softmax_single Real.exp Real.exp_pos, clipByValue_of_mem p hp.1 hp.2, one_mul]
  have h := f_yes_add_f_no Real.exp Real.exp_pos ps
  rw [show f_no Real.exp ps = 1 - f_yes Real.exp ps by linarith]

/-- The expected loss of a single event in terms of the yes fraction. -/
theorem expectedLoss_eq (W p q : ℝ) (hW : 0 < W)
    (hp : EPSILON ℝ ≤ p ∧ p ≤ 1 - EPSILON ℝ) (ps : Params ℝ 1) :
    expectedLoss Real.exp Real.log W p q ps
      = -(q * Real.log (max (f_yes Real.exp ps / p) (EPSILON ℝ)))
        - (1 - q) * Real.log (max ((1 - f_yes Real.exp ps) / (1 - p)) (EPSILON ℝ)) := by
  have h0 := EPSILON_pos (K := ℝ)
  have hp0 : 0 < p := by linarith [hp.1]
  have hp1 : 0 < 1 - p := by linarith [hp.2]
  have hy := n_yes_single W p hp ps
  have hn := n_no_single W p hp ps
  have hadj : (P_adj fun _ : Fin 1 => p) 0 = p := clipByValue_of_mem p hp.1 hp.2
  have w1 : wealth_ratio_batch Real.exp W (fun _ => p) (P_adj fun _ => p) ps
      (fun (_ : Fin 1) (_ : Fin 1) => (1 : ℝ)) 0 = f_yes Real.exp ps / p := by
    unfold wealth_ratio_batch G_batch
    rw [Fin.sum_univ_one, hy, hn]
    field_simp
    ring
  have w0 : wealth_ratio_batch Real.exp W (fun _ => p) (P_adj fun _ => p) ps
      (fun (_ : Fin 1) (_ : Fin 1) => (0 : ℝ)) 0 = (1 - f_yes Real.exp ps) / (1 - p) := by
    unfold wealth_ratio_batch G_batch
    rw [Fin.sum_univ_one, hy, hn]
    field_simp
    ring
  unfold expectedLoss sampleLoss lossOnBatch log_return_batch
  rw [Fin.sum_univ_one, Fin.sum_univ_one, w1, w0]
  simp
  ring

theorem EPSILON_le_one : EPSILON ℝ ≤ 1 := by
  have := EPSILON_lt_half (K := ℝ)
  linarith

/-- A yes fraction at or below the price, when the true probability is above
the price, gives a non-negative expected loss. -/
theorem loss_nonneg_of_le (p q f : ℝ) (hp0 : 0 < p) (hp1 : p < 1) (hpq : p < q)
    (hq1 : q < 1) (hf0 : 0 < f) (hf : f ≤ p) :
    0 ≤ -(q * Real.log (max (f / p) (EPSILON ℝ)))
        - (1 - q) * Real.log (max ((1 - f) / (1 - p)) (EPSILON ℝ)) := by
  have h1p : 0 < 1 - p := by linarith
  have h1q : 0 < 1 - q := by linarith
  have hb1 : 1 ≤ (1 - f) / (1 - p) := by
    rw [le_div_iff₀ h1p]; linarith
  have hb : max ((1 - f) / (1 - p)) (EPSILON ℝ) = (1 - f) / (1 - p) :=
    max_eq_left (le_trans EPSILON_le_one hb1)
  have hlogb : Real.log ((1 - f) / (1 - p)) ≤ (1 - f) / (1 - p) - 1 :=
    Real.log_le_sub_one_of_pos (lt_of_lt_of_le one_pos hb1)
  have hb2 : (1 - f) / (1 - p) - 1 = (p - f) / (1 - p) := by
    field_simp
  have hb3 : (1 - q) * ((p - f) / (1 - p)) ≤ p - f := by
    rw [← mul_div_assoc, div_le_iff₀ h1p]
    nlinarith
  have hB : (1 - q) * Real.log ((1 - f) / (1 - p)) ≤ p - f := by
    have := mul_le_mul_of_nonneg_left hlogb h1q.le
    rw [hb2] at this
    linarith
  rw [hb]
  rcases le_total (EPSILON ℝ) (f / p) with ha | ha
  · rw [max_eq_left ha]
    have hloga : Real.log (f / p) ≤ f / p - 1 :=
      Real.log_le_sub_one_of_pos (div_pos hf0 hp0)
    have ha2 : q * (f / p - 1) ≤ f - p := by
      have h3 : f / p - 1 = (f - p) / p := by field_simp
      rw [h3, ← mul_div_assoc, div_le_iff₀ hp0]
      nlinarith
    have hA : q * Real.log (f / p) ≤ f - p := by
      have := mul_le_mul_of_nonneg_left hloga (le_of_lt (lt_trans hp0 hpq))
      linarith
    linarith
  · rw [max_eq_right ha]
    have hA : q * Real.log (EPSILON ℝ) ≤ -q := by
      have := mul_le_mul_of_nonneg_left log_EPSILON_le (le_of_lt (lt_trans hp0 hpq))
      linarith
    linarith

/-- The mirror image: a yes fraction at or above the price, when the true
probability is below the price, gives a non-negative expected loss. -/
theorem loss_nonneg_of_ge (p q f : ℝ) (hp1 : p < 1) (hq0 : 0 < q)
    (hqp : q < p) (hf1 : f < 1) (hf : p ≤ f) :
    0 ≤ -(q * Real.log (max (f / p) (EPSILON ℝ)))
        - (1 - q) * Real.log (max ((1 - f) / (1 - p)) (EPSILON ℝ)) := by
  have h := loss_nonneg_of_le (1 - p) (1 - q) (1 - f) (by linarith) (by linarith)
    (by linarith) (by linarith) (by linarith) (by linarith)
  simp only [sub_sub_cancel] at h
  linarith

/-- At the yes fraction `q` the expected loss is negative unless `q = p`. -/
theorem loss_neg_at_q (p q : ℝ) (hp0 : 0 < p) (hp1 : p < 1) (hq0 : 0 < q)
    (hq1 : q < 1) (hne : q ≠ p) :
    -(q * Real.log (max (q / p) (EPSILON ℝ)))
        - (1 - q) * Real.log (max ((1 - q) / (1 - p)) (EPSILON ℝ)) < 0 := by
  have h1p : 0 < 1 - p := by linarith
  have h1q : 0 < 1 - q := by linarith
  have ha : Real.log (q / p) ≤ Real.log (max (q / p) (EPSILON ℝ)) :=
    Real.log_le_log (div_pos hq0 hp0) (le_max_left _ _)
  have hb : Real.log ((1 - q) / (1 - p)) ≤ Real.log (max ((1 - q) / (1 - p)) (EPSILON ℝ)) :=
    Real.log_le_log (div_pos h1q h1p) (le_max_left _ _)
  have h1 : Real.log (p / q) < p / q - 1 :=
    Real.log_lt_sub_one_of_pos (div_pos hp0 hq0)
      (fun h => hne ((div_eq_one_iff_eq hq0.ne.symm).mp h).symm)
  have h2 : Real.log ((1 - p) / (1 - q)) ≤ (1 - p) / (1 - q) - 1 :=
    Real.log_le_sub_one_of_pos (div_pos h1p h1q)
  rw [Real.log_div hp0.ne.symm hq0.ne.symm] at h1
  rw [Real.log_div h1p.ne.symm h1q.ne.symm] at h2
  rw [Real.log_div hq0.ne.symm hp0.ne.symm] at ha
  rw [Real.log_div h1q.ne.symm h1p.ne.symm] at hb
  have e1 : q * (p / q - 1) = p - q := by field_simp
  have e2 : (1 - q) * ((1 - p) / (1 - q) - 1) = q - p := by field_simp
  have m1 := mul_lt_mul_of_pos_left h1 hq0
  have m2 := mul_le_mul_of_nonneg_left h2 h1q.le
  have m3 := mul_le_mul_of_nonneg_left ha hq0.le
  have m4 := mul_le_mul_of_nonneg_left hb h1q.le
  rw [e1] at m1
  rw [e2] at m2
  nlinarith

/-- The logits `log q`, `log (1 - q)` give the yes fraction `q`. -/
theorem f_yes_of_log (q : ℝ) (hq0 : 0 < q) (hq1 : q < 1) (ps : Params ℝ 1) :
    f_yes Real.exp { ps with theta_yes := Real.log q, theta_no := Real.log (1 - q) } = q := by
  unfold f_yes f_fractions softmax
  rw [Fin.sum_univ_two]
  simp only [Matrix.cons_val_zero, Matrix.cons_val_one, Matrix.head_cons]
  rw [Real.exp_log hq0, Real.exp_log (by linarith)]
  field_simp

/-- When the yes side is clipped (`f / p ≤ EPSILON`), the clipped expected
log return is at most the one at the yes fraction `q`, provided
`q ≥ 3 * EPSILON * p`. -/
theorem clipped_side_le (p q f : ℝ) (hp0 : 0 < p) (hp1 : p < 1) (hq0 : 0 < q)
    (hq1 : q < 1) (h3 : 3 * EPSILON ℝ * p ≤ q) (hf0 : 0 < f)
    (hf : f / p ≤ EPSILON ℝ) :
    q * Real.log (EPSILON ℝ) + (1 - q) * Real.log (max ((1 - f) / (1 - p)) (EPSILON ℝ))
      ≤ q * Real.log (q / p) + (1 - q) * Real.log ((1 - q) / (1 - p)) := by
  have h0 := EPSILON_pos (K := ℝ)
  have h1p : 0 < 1 - p := by linarith
  have h1q : 0 < 1 - q := by linarith
  have hfp : f ≤ p := by
    have h := (div_le_iff₀ hp0).mp hf
    have : EPSILON ℝ * p ≤ 1 * p := mul_le_mul_of_nonneg_right EPSILON_le_one hp0.le
    linarith
  have h1f : 0 < 1 - f := by linarith
  have hb1 : 1 ≤ (1 - f) / (1 - p) := by
    rw [le_div_iff₀ h1p]; linarith
  rw [max_eq_left (le_trans EPSILON_le_one hb1), Real.log_div h1f.ne.symm h1p.ne.symm,
    Real.log_div h1q.ne.symm h1p.ne.symm]
  have hlf : Real.log (1 - f) ≤ 0 := Real.log_nonpos h1f.le (by linarith)
  have hlq : 1 - (1 - q)⁻¹ ≤ Real.log (1 - q) := Real.one_sub_inv_le_log_of_pos h1q
  have hlq2 : -q ≤ (1 - q) * Real.log (1 - q) := by
    have := mul_le_mul_of_nonneg_left hlq h1q.le
    have e : (1 - q) * (1 - (1 - q)⁻¹) = -q := by field_simp; ring
    linarith
  have hqp : 3 * EPSILON ℝ ≤ q / p := by
    rw [le_div_iff₀ hp0]; exact h3
  have hl3 : Real.log (3 * EPSILON ℝ) ≤ Real.log (q / p) :=
    Real.log_le_log (by positivity) hqp
  rw [Real.log_mul (by norm_num) h0.ne.symm] at hl3
  have hl4 : 1 + Real.log (EPSILON ℝ) ≤ Real.log (q / p) := by
    linarith [one_le_log_three]
  have m1 := mul_le_mul_of_nonneg_left hl4 hq0.le
  have m2 := mul_le_mul_of_nonneg_left hlf h1q.le
  nlinarith

/-- Without clipping, the expected log return is largest at the yes fraction
`q` (Gibbs' inequality). -/
theorem unclipped_le (p q f : ℝ) (hp0 : 0 < p) (hp1 : p < 1) (hq0 : 0 < q)
    (hq1 : q < 1) (hf0 : 0 < f) (hf1 : f < 1) :
    q * Real.log (f / p) + (1 - q) * Real.log ((1 - f) / (1 - p))
      ≤ q * Real.log (q / p) + (1 - q) * Real.log ((1 - q) / (1 - p)) := by
  have h1p : 0 < 1 - p := by linarith
  have h1q : 0 < 1 - q := by linarith
  have h1f : 0 < 1 - f := by linarith
  have h1 : Real.log (f / q) ≤ f / q - 1 :=
    Real.log_le_sub_one_of_pos (div_pos hf0 hq0)
  have h2 : Real.log ((1 - f) / (1 - q)) ≤ (1 - f) / (1 - q) - 1 :=
    Real.log_le_sub_one_of_pos (div_pos h1f h1q)
  rw [Real.log_div hf0.ne.symm hq0.ne.symm] at h1
  rw [Real.log_div h1f.ne.symm h1q.ne.symm] at h2
  rw [Real.log_div hf0.ne.symm hp0.ne.symm, Real.log_div h1f.ne.symm h1p.ne.symm,
    Real.log_div hq0.ne.symm hp0.ne.symm, Real.log_div h1q.ne.symm h1p.ne.symm]
  have e1 : q * (f / q - 1) = f - q := by field_simp
  have e2 : (1 - q) * ((1 - f) / (1 - q) - 1) = q - f := by field_simp
  have m1 := mul_le_mul_of_nonneg_left h1 hq0.le
  have m2 := mul_le_mul_of_nonneg_left h2 h1q.le
  rw [e1] at m1
  rw [e2] at m2
  nlinarith

/-- A minimiser exists when `q` is not within a factor `3 * EPSILON` of the
ends: the logits `log q`, `log (1 - q)` minimise the expected loss. -/
theorem minimises_at_q (W p q : ℝ) (hW : 0 < W)
    (hp : EPSILON ℝ ≤ p ∧ p ≤ 1 - EPSILON ℝ) (hq : 0 < q ∧ q < 1)
    (h3 : 3 * EPSILON ℝ * p ≤ q) (h3n : 3 * EPSILON ℝ * (1 - p) ≤ 1 - q)
    (ps : Params ℝ 1) :
    MinimisesExpectedLoss Real.exp Real.log W p q
      { ps with theta_yes := Real.log q, theta_no := Real.log (1 - q) } := by
  intro ty tn
  have h0 := EPSILON_pos (K := ℝ)
  have hp0 : 0 < p := by linarith [hp.1]
  have hp1 : p < 1 := by linarith [hp.2]
  have h1p : 0 < 1 - p := by linarith
  rw [expectedLoss_eq W p q hW hp, expectedLoss_eq W p q hW hp,
    f_yes_of_log q hq.1 hq.2]
  generalize hfdef : f_yes Real.exp
    { theta_yes := ty, theta_no := tn, phi_yes := _, phi_no := _ } = f
  have hf0 : 0 < f := hfdef ▸ f_yes_pos Real.exp Real.exp_pos _
  have hf1 : f < 1 := by
    have h1 := f_no_pos Real.exp Real.exp_pos
      ({ theta_yes := ty, theta_no := tn, phi_yes := ps.phi_yes, phi_no := ps.phi_no } :
        Params ℝ 1)
    have h2 := f_yes_add_f_no Real.exp Real.exp_pos
      ({ theta_yes := ty, theta_no := tn, phi_yes := ps.phi_yes, phi_no := ps.phi_no } :
        Params ℝ 1)
    rw [hfdef] at h2
    linarith
  have hqa : EPSILON ℝ ≤ q / p := by
    rw [le_div_iff₀ hp0]; nlinarith
  have hqb : EPSILON ℝ ≤ (1 - q) / (1 - p) := by
    rw [le_div_iff₀ h1p]; nlinarith
  rw [max_eq_left hqa, max_eq_left hqb]
  rcases le_total (f / p) (EPSILON ℝ) with ha | ha
  · have := clipped_side_le p q f hp0 hp1 hq.1 hq.2 h3 hf0 ha
    rw [max_eq_right ha]
    linarith
  · rcases le_total ((1 - f) / (1 - p)) (EPSILON ℝ) with hb | hb
    · have := clipped_side_le (1 - p) (1 - q) (1 - f) h1p (by linarith) (by linarith)
        (by linarith) h3n (by linarith) hb
      simp only [sub_sub_cancel] at this
      rw [max_eq_right hb]
      linarith
    · have := unclipped_le p q f hp0 hp1 hq.1 hq.2 hf0 hf1
      rw [max_eq_left ha, max_eq_left hb]
      linarith

/-- The per-sample loss of a single event with outcome `y`, written out:
`-log(max(1 + (y - p) * (n_yes - n_no) / W, EPSILON))`. -/
theorem sampleLoss_single (W p y : ℝ) (ps : Params ℝ 1) :
    sampleLoss Real.exp Real.log W (fun _ => p) (P_adj fun _ => p) ps (fun _ => y)
      = -Real.log (max (1 + (y - p)
            * (n_yes Real.exp W (P_adj fun _ => p) ps 0
                - n_no Real.exp W (P_adj fun _ => p) ps 0) / W) (EPSILON ℝ)) := by
  unfold sampleLoss lossOnBatch log_return_batch wealth_ratio_batch G_batch
  rw [Fin.sum_univ_one, Fin.sum_univ_one]
  simp only [Nat.cast_one, div_one]
  rw [add_comm]

/-! ## Theorems: the optimum of the expected loss -/

/-- C8. The objective has the Kelly optimum: for a single event with raw
price `p` in `[EPSILON, 1 - EPSILON]`, true probability `q` in `(0, 1)` and
wealth `W > 0`, every `(theta_yes, theta_no)` that minimises the exact expected
per-sample loss gives, in `displayResults`, a positive net yes position and a
zero net no position when `q > p`, and a positive net no position and a zero
net yes position when `q < p`. -/
theorem kelly_optimum_side (W p q : ℝ) (hW : 0 < W)
    (hp : EPSILON ℝ ≤ p ∧ p ≤ 1 - EPSILON ℝ) (hq : 0 < q ∧ q < 1) (ps : Params ℝ 1)
    (hmin : MinimisesExpectedLoss Real.exp Real.log W p q ps) :
    (p < q →
        0 < (displayResults Real.exp W (P_adj fun _ => p) ps).n_yes_net 0
          ∧ (displayResults Real.exp W (P_adj fun _ => p) ps).n_no_net 0 = 0)
      ∧ (q < p →
        0 < (displayResults Real.exp W (P_adj fun _ => p) ps).n_no_net 0
          ∧ (displayResults Real.exp W (P_adj fun _ => p) ps).n_yes_net 0 = 0) := by
  have h0 := EPSILON_pos (K := ℝ)
  have hp0 : 0 < p := by linarith [hp.1]
  have hp1 : p < 1 := by linarith [hp.2]
  have h1p : 0 < 1 - p := by linarith
  have hf0 : 0 < f_yes Real.exp ps := f_yes_pos Real.exp Real.exp_pos ps
  have hf1 : f_yes Real.exp ps < 1 := by
    have h1 := f_no_pos Real.exp Real.exp_pos ps
    have h2 := f_yes_add_f_no Real.exp Real.exp_pos ps
    linarith
  have hle := hmin (Real.log q) (Real.log (1 - q))
  rw [expectedLoss_eq W p q hW hp, expectedLoss_eq W p q hW hp,
    f_yes_of_log q hq.1 hq.2] at hle
  have hy := n_yes_single W p hp ps
  have hn := n_no_single W p hp ps
  have hyes : (displayResults Real.exp W (P_adj fun _ => p) ps).n_yes_net 0
      = n_yes Real.exp W (P_adj fun _ => p) ps 0
        - min (n_yes Real.exp W (P_adj fun _ => p) ps 0)
            (n_no Real.exp W (P_adj fun _ => p) ps 0) := rfl
  have hno : (displayResults Real.exp W (P_adj fun _ => p) ps).n_no_net 0
      = n_no Real.exp W (P_adj fun _ => p) ps 0
        - min (n_yes Real.exp W (P_adj fun _ => p) ps 0)
            (n_no Real.exp W (P_adj fun _ => p) ps 0) := rfl
  rw [hyes, hno, hy, hn]
  constructor
  · intro hpq
    have hneg := loss_neg_at_q p q hp0 hp1 hq.1 hq.2 hpq.ne.symm
    have hfp : p < f_yes Real.exp ps := by
      by_contra hcon
      have := loss_nonneg_of_le p q (f_yes Real.exp ps) hp0 hp1 hpq hq.2 hf0
        (not_lt.mp hcon)
      linarith
    have hlt : (1 - f_yes Real.exp ps) * W / (1 - p) < f_yes Real.exp ps * W / p := by
      rw [div_lt_div_iff₀ h1p hp0]
      nlinarith
    rw [min_eq_right hlt.le]
    exact ⟨by linarith, sub_self _⟩
  · intro hqp
    have hneg := loss_neg_at_q p q hp0 hp1 hq.1 hq.2 hqp.ne
    have hfp : f_yes Real.exp ps < p := by
      by_contra hcon
      have := loss_nonneg_of_ge p q (f_yes Real.exp ps) hp1 hq.1 hqp hf1
        (not_lt.mp hcon)
      linarith
    have hlt : f_yes Real.exp ps * W / p < (1 - f_yes Real.exp ps) * W / (1 - p) := by
      rw [div_lt_div_iff₀ hp0 h1p]
      nlinarith
    rw [min_eq_left hlt.le]
    exact ⟨by linarith, sub_self _⟩

/-- Witness of C8. Scenario B (price 0.3, true probability 0.6, wealth 100):
the logits `log 0.6`, `log 0.4` minimise the expected loss and give a positive
net yes position. Scenario C (price 0.7, true probability 0.4, wealth 100): the
logits `log 0.4`, `log 0.6` minimise it and give a positive net no position. -/
theorem kelly_optimum_side_witness :
    ((0 : ℝ) < 100
      ∧ (EPSILON ℝ ≤ 3 / 10 ∧ (3 / 10 : ℝ) ≤ 1 - EPSILON ℝ)
      ∧ ((0 : ℝ) < 6 / 10 ∧ (6 / 10 : ℝ) < 1)
      ∧ MinimisesExpectedLoss Real.exp Real.log 100 (3 / 10) (6 / 10)
          { Params.init ℝ 1 with
            theta_yes := Real.log (6 / 10), theta_no := Real.log (1 - 6 / 10) }
      ∧ (3 / 10 : ℝ) < 6 / 10
      ∧ 0 < (displayResults Real.exp 100 (P_adj fun _ => (3 / 10 : ℝ))
          { Params.init ℝ 1 with
            theta_yes := Real.log (6 / 10), theta_no := Real.log (1 - 6 / 10) }).n_yes_net 0
      ∧ (displayResults Real.exp 100 (P_adj fun _ => (3 / 10 : ℝ))
          { Params.init ℝ 1 with
            theta_yes := Real.log (6 / 10), theta_no := Real.log (1 - 6 / 10) }).n_no_net 0 = 0)
    ∧ ((0 : ℝ) < 100
      ∧ (EPSILON ℝ ≤ 7 / 10 ∧ (7 / 10 : ℝ) ≤ 1 - EPSILON ℝ)
      ∧ ((0 : ℝ) < 4 / 10 ∧ (4 / 10 : ℝ) < 1)
      ∧ MinimisesExpectedLoss Real.exp Real.log 100 (7 / 10) (4 / 10)
          { Params.init ℝ 1 with
            theta_yes := Real.log (4 / 10), theta_no := Real.log (1 - 4 / 10) }
      ∧ (4 / 10 : ℝ) < 7 / 10
      ∧ 0 < (displayResults Real.exp 100 (P_adj fun _ => (7 / 10 : ℝ))
          { Params.init ℝ 1 with
            theta_yes := Real.log (4 / 10), theta_no := Real.log (1 - 4 / 10) }).n_no_net 0
      ∧ (displayResults Real.exp 100 (P_adj fun _ => (7 / 10 : ℝ))
          { Params.init ℝ 1 with
            theta_yes := Real.log (4 / 10), theta_no := Real.log (1 - 4 / 10) }).n_yes_net 0 = 0) :=
  ⟨⟨by norm_num, by unfold EPSILON; norm_num, by norm_num,
    minimises_at_q 100 (3 / 10) (6 / 10) (by norm_num) (by unfold EPSILON; norm_num)
      (by norm_num) (by unfold EPSILON; norm_num) (by unfold EPSILON; norm_num)
      (Params.init ℝ 1),
    by norm_num,
    (kelly_optimum_side 100 (3 / 10) (6 / 10) (by norm_num) (by unfold EPSILON; norm_num)
      (by norm_num) _
      (minimises_at_q 100 (3 / 10) (6 / 10) (by norm_num) (by unfold EPSILON; norm_num)
      (by norm_num) (by unfold EPSILON; norm_num) (by unfold EPSILON; norm_num)
      (Params.init ℝ 1))).1 (by norm_num)⟩,
  ⟨by norm_num, by unfold EPSILON; norm_num, by norm_num,
    minimises_at_q 100 (7 / 10) (4 / 10) (by norm_num) (by unfold EPSILON; norm_num)
      (by norm_num) (by unfold EPSILON; norm_num) (by unfold EPSILON; norm_num)
      (Params.init ℝ 1),
    by norm_num,
    (kelly_optimum_side 100 (7 / 10) (4 / 10) (by norm_num) (by unfold EPSILON; norm_num)
      (by norm_num) _
      (minimises_at_q 100 (7 / 10) (4 / 10) (by norm_num) (by unfold EPSILON; norm_num)
      (by norm_num) (by unfold EPSILON; norm_num) (by unfold EPSILON; norm_num)
      (Params.init ℝ 1))).2 (by norm_num)⟩⟩

end PredictionMarket
